import Mathlib

/-!
Formal model of the fsdedup pipeline (scan → hash-index → pairwise dedup).

The Rust sources are shallowly embedded:
* `src/scan.rs`   — `ScanResult`, `scan_file`, `get_block_location` (namespace `ScanRs`);
* `src/main.rs`   — its own copies of `ScanResult`, `scan_file`, `get_block_location`,
  plus the consumer loop in `main` (namespace `MainRs` and the consumer model below);
* `src/dedup.rs`  — `BlockLocation`, `BlockDedupError`, `dedup` (the identical function
  is duplicated in `src/main.rs`; it is modelled once).

File contents are modelled as a `List Nat` of bytes; a successful sequential read of a
file in `block_size`-sized chunks (`BufReader::read` filling the whole buffer except at
end of file) is modelled by `readChunks`.  Machine integers (`u64`, `usize`, assumed
64-bit) are modelled as `Nat`, with an explicit `% 2 ^ 64` where wrap-around matters.
Filesystem behaviour at dedup time (`File::open`, `OpenOptions::open`, inode numbers,
and the `deduplicate_range` primitive of the `btrfs` crate) is an explicit environment
`FsEnv`; the side effects `dedup` performs are returned as an `Effect` list.
-/

/-- 2^64, the modulus of `u64`/`usize` arithmetic (64-bit target assumed). -/
def USIZE : Nat := 18446744073709551616

/-- `block_hashes.len() - 1` as computed by `get_block_location`: a `usize`
subtraction, which wraps around on an empty vector. -/
def usizeSub1 (n : Nat) : Nat := (n + (USIZE - 1)) % USIZE

/-! ### The crc64fast digest

`crc64fast::Digest` computes CRC-64/XZ: reflected polynomial `0xC96C5795D7870F42`,
initial value and final xor `0xFFFFFFFFFFFFFFFF`.  The SIMD implementation of the
crate computes the same function as the bitwise definition below. -/

def crc64poly : Nat := 0xC96C5795D7870F42

/-- One reflected CRC shift step. -/
def crc64shift (x : Nat) : Nat :=
  if x % 2 = 1 then (x / 2) ^^^ crc64poly else x / 2

/-- Fold one byte into the CRC state. -/
def crc64byte (crc b : Nat) : Nat :=
  crc64shift (crc64shift (crc64shift (crc64shift
    (crc64shift (crc64shift (crc64shift (crc64shift (crc ^^^ (b % 256)))))))))

/-- `Digest::new(); digest.write(data); digest.sum64()`. -/
def crc64 (data : List Nat) : Nat :=
  (data.foldl crc64byte 0xFFFFFFFFFFFFFFFF) ^^^ 0xFFFFFFFFFFFFFFFF

/-! ### The read loop

Both `scan_file` implementations loop on `reader.read(&mut buf)` with
`buf = vec![0u8; block_size]`, hashing `buf[0..chunk_size]` until a read returns 0.
For an ordinary file read to the end, each read returns
`min (block_size, bytes remaining)`, so the loop visits exactly the chunks below. -/

set_option linter.unusedVariables false in
def readChunks (block_size : Nat) (content : List Nat) : List (List Nat) :=
  if h : block_size = 0 ∨ content = [] then []
  else (content.take block_size) :: readChunks block_size (content.drop block_size)
termination_by content.length
decreasing_by
  push_neg at h
  simp only [List.length_drop]
  exact Nat.sub_lt (List.length_pos.mpr h.2) (Nat.pos_of_ne_zero h.1)

theorem readChunks_nil (B : Nat) : readChunks B [] = [] := by
  rw [readChunks]; simp

theorem readChunks_cons (B : Nat) (c : List Nat) (hB : B ≠ 0) (hc : c ≠ []) :
    readChunks B c = c.take B :: readChunks B (c.drop B) := by
  rw [readChunks]
  simp [hB, hc]

theorem readChunks_ne_nil (B : Nat) (c : List Nat) (hB : B ≠ 0) (hc : c ≠ []) :
    readChunks B c ≠ [] := by
  rw [readChunks_cons B c hB hc]
  simp

/-! ### src/scan.rs -/

namespace ScanRs

/-- `ScanResult` of `src/scan.rs` (fields `path`, `block_size`, `block_hashes`,
`last_block_size`, `mtime`, `ino`). -/
structure ScanResult where
  path : String
  block_size : Nat
  block_hashes : List Nat
  last_block_size : Nat
  mtime : Nat
  ino : Nat
deriving DecidableEq

/-- `scan_file` of `src/scan.rs`, on the success path: `path` is the canonical
path, `content` the bytes of the opened file (`file_size = content.length`),
`mtime`/`ino` the metadata read at scan time.  `last_block_size` is set up front
to `file_size % block_size`; the loop only pushes hashes. -/
def scan_file (path : String) (content : List Nat) (block_size mtime ino : Nat) :
    ScanResult :=
  { path := path
    block_size := block_size
    block_hashes :=
      (readChunks block_size content).foldl (fun acc chunk => acc ++ [crc64 chunk]) []
    last_block_size := content.length % block_size
    mtime := mtime
    ino := ino }

end ScanRs

/-! ### src/main.rs scan side -/

namespace MainRs

/-- `ScanResult` of `src/main.rs` (no `mtime`/`ino`; `#[derive(Default)]`). -/
structure ScanResult where
  path : String
  block_size : Nat
  block_hashes : List Nat
  last_block_size : Nat
deriving DecidableEq

/-- `scan_file` of `src/main.rs`, on the success path.  The loop both pushes the
chunk hash and overwrites `last_block_size` with the chunk size just read;
`last_block_size` starts at 0 (`ScanResult::default()`). -/
def scan_file (path : String) (content : List Nat) (block_size : Nat) : ScanResult :=
  let st := (readChunks block_size content).foldl
    (fun (st : List Nat × Nat) chunk => (st.1 ++ [crc64 chunk], chunk.length)) ([], 0)
  { path := path
    block_size := block_size
    block_hashes := st.1
    last_block_size := st.2 }

end MainRs

/-! ### src/dedup.rs (duplicated verbatim in src/main.rs)

`dedup` interacts with the filesystem: two `open` calls, `metadata().ino()` on the
opened handles, and the `btrfs::deduplicate_range` primitive.  These are modelled by
an environment `FsEnv`; every filesystem interaction `dedup` performs is also
reported in an `Effect` trace so that "performs no open / no primitive call" is a
statement about the model, not about its absence. -/

deriving instance DecidableEq for Except

/-- `BlockLocation` (the identical struct is declared in both `src/dedup.rs` and
`src/main.rs`). -/
structure BlockLocation where
  path : String
  offset : Nat
  length : Nat
deriving DecidableEq

/-- An open file handle: `as_raw_fd()` and `metadata().ino()`. -/
structure File where
  fd : Nat
  ino : Nat
deriving DecidableEq

/-- `btrfs::DedupeRangeStatus`. -/
inductive DedupeRangeStatus where
  | Same
  | Differs
deriving DecidableEq

/-- `btrfs::DedupeRangeDestInfo`. -/
structure DedupeRangeDestInfo where
  dest_fd : Int
  dest_offset : Nat
  bytes_deduped : Nat
  status : DedupeRangeStatus
deriving DecidableEq

/-- `btrfs::DedupeRange`. -/
structure DedupeRange where
  src_offset : Nat
  src_length : Nat
  dest_infos : List DedupeRangeDestInfo
deriving DecidableEq

/-- `BlockDedupError` (identical in `src/dedup.rs` and `src/main.rs`);
`io::Error` is modelled as a `String`. -/
inductive BlockDedupError where
  | SameBlock (block : BlockLocation)
  | SameExtent (path1 path2 : String) (ino : Nat) (offset : Nat) (length : Nat)
  | DedupInternal (e : String)
  | FileErrors (e1 e2 : Option String)
deriving DecidableEq

/-- The filesystem as seen by one `dedup` call: `fs::File::open` (read-only),
`OpenOptions::new().write(true).open` and `btrfs::deduplicate_range`. -/
structure FsEnv where
  openRead : String → Except String File
  openWrite : String → Except String File
  deduplicate_range : Nat → DedupeRange → Except String Unit

/-- One filesystem interaction performed by `dedup`. -/
inductive Effect where
  | openRead (path : String)
  | openWrite (path : String)
  | dedupRange (srcFd : Nat) (req : DedupeRange)
deriving DecidableEq

/-- `Result::err()`. -/
def resultErr {ε α : Type} : Except ε α → Option ε
  | Except.ok _ => none
  | Except.error e => some e

/-- `dedup(block1, block2)` of `src/dedup.rs` / `src/main.rs`, returning its
result together with the filesystem interactions it performed, in order. -/
def dedup (env : FsEnv) (block1 block2 : BlockLocation) :
    Except BlockDedupError Unit × List Effect :=
  if block1 = block2 then
    (Except.error (BlockDedupError.SameBlock block1), [])
  else
    match env.openRead block1.path, env.openWrite block2.path with
    | Except.ok file1, Except.ok file2 =>
      if (file1.ino, block1.offset, block1.length)
          = (file2.ino, block2.offset, block2.length) then
        (Except.error (BlockDedupError.SameExtent block1.path block2.path
            file1.ino block1.offset block1.length),
         [Effect.openRead block1.path, Effect.openWrite block2.path])
      else
        let range : DedupeRange :=
          { src_offset := block1.offset
            src_length := block1.length
            dest_infos := [{ dest_fd := Int.ofNat file2.fd
                             dest_offset := block2.offset
                             bytes_deduped := block2.length
                             status := DedupeRangeStatus.Same }] }
        match env.deduplicate_range file1.fd range with
        | Except.ok _ =>
          (Except.ok (),
           [Effect.openRead block1.path, Effect.openWrite block2.path,
            Effect.dedupRange file1.fd range])
        | Except.error e =>
          (Except.error (BlockDedupError.DedupInternal e),
           [Effect.openRead block1.path, Effect.openWrite block2.path,
            Effect.dedupRange file1.fd range])
    | r1, r2 =>
      (Except.error (BlockDedupError.FileErrors (resultErr r1) (resultErr r2)),
       [Effect.openRead block1.path, Effect.openWrite block2.path])

/-! ### get_block_location (declared on both ScanResult types) -/

namespace ScanRs

/-- `ScanResult::get_block_location` of `src/scan.rs`: `usize`/`u64` arithmetic,
wrapping (`len() - 1` underflows on an empty `block_hashes`). -/
def ScanResult.get_block_location (self : ScanResult) (index : Nat) : BlockLocation :=
  { path := self.path
    offset := (self.block_size * index) % USIZE
    length := if index = usizeSub1 self.block_hashes.length
      then self.last_block_size else self.block_size }

end ScanRs

namespace MainRs

/-- `ScanResult::get_block_location` of `src/main.rs` (same body as the
`src/scan.rs` copy). -/
def ScanResult.get_block_location (self : ScanResult) (index : Nat) : BlockLocation :=
  { path := self.path
    offset := (self.block_size * index) % USIZE
    length := if index = usizeSub1 self.block_hashes.length
      then self.last_block_size else self.block_size }

end MainRs

/-! ### The consumer loop of `main` (src/main.rs)

`main` receives `ScanResult`s from the bounded channel and, for each, iterates
`block_hashes.iter().enumerate()`; each block either hits the `inodes` index and
triggers exactly one `dedup` call (whose error, if any, is only logged), or
misses and is inserted.  The list `srs` below is the sequence of `ScanResult`s
the single consumer receives, in arrival order; the `HashMap` is modelled as an
association list (`insert` = cons, `get` = first match — keys are never
duplicated, because insertion only happens on a miss).  The model additionally
records an `Event` per `get_block_location` call and per `dedup` call. -/

/-- Observable events of the consumer loop: each `get_block_location(number)`
call (with the length of `block_hashes` it reads), and each `dedup` invocation
with its result. -/
inductive Event where
  | getLoc (len idx : Nat)
  | dedupCall (h : Nat) (src dst : BlockLocation) (res : Except BlockDedupError Unit)
deriving DecidableEq

/-- Consumer-thread state: the `inodes: HashMap<Hash, BlockLocation>` and the
event trace. -/
structure ConsumerState where
  inodes : List (Nat × BlockLocation)
  trace : List Event
deriving DecidableEq

/-- `HashMap::get` on the association-list model. -/
def lookupIdx : List (Nat × BlockLocation) → Nat → Option BlockLocation
  | [], _ => none
  | (k, v) :: rest, h => if h = k then some v else lookupIdx rest h

/-- The body of the inner `for (number, block_hash)` loop of `main`. -/
def processBlock (env : FsEnv) (sr : MainRs.ScanResult) (number block_hash : Nat)
    (st : ConsumerState) : ConsumerState :=
  let block_location := sr.get_block_location number
  let st1 : ConsumerState :=
    { st with trace := st.trace ++ [Event.getLoc sr.block_hashes.length number] }
  match lookupIdx st1.inodes block_hash with
  | some x =>
    { st1 with trace := st1.trace
        ++ [Event.dedupCall block_hash x block_location (dedup env x block_location).1] }
  | none =>
    { st1 with inodes := (block_hash, block_location) :: st1.inodes }

/-- `for (number, block_hash) in scan_result.block_hashes.iter().enumerate()`,
starting at index `number`. -/
def consumeBlocks (env : FsEnv) (sr : MainRs.ScanResult) :
    Nat → List Nat → ConsumerState → ConsumerState
  | _, [], st => st
  | number, block_hash :: rest, st =>
    consumeBlocks env sr (number + 1) rest (processBlock env sr number block_hash st)

/-- Processing of one received `ScanResult`. -/
def processScanResult (env : FsEnv) (st : ConsumerState) (sr : MainRs.ScanResult) :
    ConsumerState :=
  consumeBlocks env sr 0 sr.block_hashes st

/-- The `while let Ok(scan_result) = scanned_rx.recv()` loop: `srs` is the
sequence of results the consumer receives; the index starts empty. -/
def runConsumer (env : FsEnv) (srs : List MainRs.ScanResult) : ConsumerState :=
  srs.foldl (processScanResult env) { inodes := [], trace := [] }

/-! ### Specification-side functions (independent of the consumer state) -/

/-- Left-biased choice on `Option`. -/
def orElseO {α : Type} : Option α → Option α → Option α
  | some x, _ => some x
  | none, b => b

/-- The first location paired with hash `h` in a stream of
(hash, location) blocks — the "first-writer" of the spec. -/
def firstSeen : List (Nat × BlockLocation) → Nat → Option BlockLocation
  | [], _ => none
  | (k, v) :: rest, h => if h = k then some v else firstSeen rest h

/-- The (hash, location) blocks of one `ScanResult`, from index `n` on. -/
def blocksOfAux (sr : MainRs.ScanResult) : Nat → List Nat → List (Nat × BlockLocation)
  | _, [] => []
  | n, h :: rest => (h, sr.get_block_location n) :: blocksOfAux sr (n + 1) rest

/-- The (hash, location) blocks of one `ScanResult`, in index order. -/
def blocksOf (sr : MainRs.ScanResult) : List (Nat × BlockLocation) :=
  blocksOfAux sr 0 sr.block_hashes

/-- All blocks of a run, in consumption order. -/
def flatBlocks : List MainRs.ScanResult → List (Nat × BlockLocation)
  | [] => []
  | sr :: rest => blocksOf sr ++ flatBlocks rest

/-- `[n, n+1, ..., n+k-1]`: the ascending index sequence. -/
def idxFrom (n : Nat) : Nat → List Nat
  | 0 => []
  | k + 1 => n :: idxFrom (n + 1) k

/-- The expected `get_block_location` call sequence of a whole run: for each
received `ScanResult` in order, indices `0, 1, ..., len-1` ascending, each
paired with that result's `block_hashes` length. -/
def getLocSpec : List MainRs.ScanResult → List (Nat × Nat)
  | [] => []
  | sr :: rest =>
    (idxFrom 0 sr.block_hashes.length).map (fun i => (sr.block_hashes.length, i))
      ++ getLocSpec rest

/-- All hashes of a run, in consumption order. -/
def allHashes : List MainRs.ScanResult → List Nat
  | [] => []
  | sr :: rest => sr.block_hashes ++ allHashes rest

/-- Number of duplicate hash occurrences (occurrences whose hash was already
seen, given the initially seen set). -/
def dupCountAux (seen : List Nat) : List Nat → Nat
  | [] => 0
  | h :: rest =>
    if h ∈ seen then 1 + dupCountAux seen rest else dupCountAux (h :: seen) rest

/-- Projection of a `getLoc` event. -/
def Event.getLocInfo : Event → Option (Nat × Nat)
  | Event.getLoc len idx => some (len, idx)
  | _ => none

/-- Is this event a `dedup` invocation? -/
def Event.isDedupCall : Event → Bool
  | Event.dedupCall _ _ _ _ => true
  | _ => false

/-- Forget the result component of a `dedup` invocation event. -/
def Event.dropRes : Event → Event
  | Event.dedupCall h s d _ => Event.dedupCall h s d (Except.ok ())
  | e => e

/-! ### Chunk lemmas for the scan loops -/

/-- `last_block_size` as left by the `src/main.rs` scan loop: the length of the
last chunk read, or the initial value if no chunk was read. -/
def lastLen : List (List Nat) → Nat → Nat
  | [], l => l
  | c :: cs, _ => lastLen cs c.length

theorem lastLen_irrel (cs : List (List Nat)) (x y : Nat) (h : cs ≠ []) :
    lastLen cs x = lastLen cs y := by
  cases cs with
  | nil => exact absurd rfl h
  | cons c cs => simp [lastLen]

theorem foldl_push_crc (chunks : List (List Nat)) : ∀ acc : List Nat,
    chunks.foldl (fun acc chunk => acc ++ [crc64 chunk]) acc
      = acc ++ chunks.map crc64 := by
  induction chunks with
  | nil => intro acc; simp
  | cons c cs ih => intro acc; simp [List.foldl_cons, ih]

theorem foldl_hash_pair (chunks : List (List Nat)) : ∀ (acc : List Nat) (l : Nat),
    chunks.foldl
      (fun (st : List Nat × Nat) chunk => (st.1 ++ [crc64 chunk], chunk.length)) (acc, l)
      = (acc ++ chunks.map crc64, lastLen chunks l) := by
  induction chunks with
  | nil => intro acc l; simp [lastLen]
  | cons c cs ih => intro acc l; simp [List.foldl_cons, lastLen, ih]

theorem mainrs_block_hashes (p : String) (c : List Nat) (B : Nat) :
    (MainRs.scan_file p c B).block_hashes = (readChunks B c).map crc64 := by
  simp [MainRs.scan_file, foldl_hash_pair]

theorem mainrs_last_block_size (p : String) (c : List Nat) (B : Nat) :
    (MainRs.scan_file p c B).last_block_size = lastLen (readChunks B c) 0 := by
  simp [MainRs.scan_file, foldl_hash_pair]

theorem scanrs_block_hashes (p : String) (c : List Nat) (B mt ino2 : Nat) :
    (ScanRs.scan_file p c B mt ino2).block_hashes = (readChunks B c).map crc64 := by
  simp [ScanRs.scan_file, foldl_push_crc]

theorem scanrs_last_block_size (p : String) (c : List Nat) (B mt ino2 : Nat) :
    (ScanRs.scan_file p c B mt ino2).last_block_size = c.length % B := rfl

/-- The last chunk of a non-empty file has length `S mod B`, or `B` when `S`
is a positive multiple of `B`. -/
theorem lastLen_readChunks (B : Nat) (hB : 0 < B) : ∀ (n : Nat) (c : List Nat),
    c ≠ [] → c.length ≤ n →
    lastLen (readChunks B c) 0 = if c.length % B = 0 then B else c.length % B := by
  have hB0 : B ≠ 0 := Nat.pos_iff_ne_zero.mp hB
  intro n
  induction n with
  | zero =>
    intro c hc hlen
    cases c with
    | nil => exact absurd rfl hc
    | cons x xs => simp at hlen
  | succ n ih =>
    intro c hc hlen
    rw [readChunks_cons B c hB0 hc]
    by_cases hd : c.drop B = []
    · rw [hd, readChunks_nil]
      have hlen2 : c.length ≤ B := by
        have := congrArg List.length hd
        simp [List.length_drop] at this
        omega
      simp only [lastLen, List.length_take]
      have hmin : min B c.length = c.length := Nat.min_eq_right hlen2
      rw [hmin]
      have hpos : 0 < c.length := List.length_pos.mpr hc
      by_cases hEq : c.length = B
      · rw [hEq]; simp [Nat.mod_self]
      · have hlt : c.length < B := lt_of_le_of_ne hlen2 hEq
        rw [Nat.mod_eq_of_lt hlt, if_neg (by omega)]
    · have hlt : B < c.length := by
        by_contra hle
        push_neg at hle
        have : (c.drop B).length = 0 := by simp [List.length_drop]; omega
        exact hd (List.length_eq_zero.mp this)
      simp only [lastLen]
      rw [lastLen_irrel _ _ 0 (readChunks_ne_nil B _ hB0 hd)]
      rw [ih (c.drop B) hd (by simp [List.length_drop]; omega)]
      rw [List.length_drop, ← Nat.mod_eq_sub_mod (le_of_lt hlt)]

/-! ### Claims about the scanner -/

/-- C1: the chunking claim requires `last_block_size = B` when the file size is a
positive multiple of `B`; `scan_file` in `src/scan.rs` instead records
`file_size % block_size`, which is `0` there.  Evaluating both implementations at
a one-byte file with `block_size = 1` (size a positive multiple of the block
size): `src/scan.rs` records `last_block_size = 0` (and hence a zero-length final
block), while `src/main.rs` records `1` as the claim demands. -/
theorem scanrs_last_block_size_zero_on_exact_multiple :
    (ScanRs.scan_file "f" [0] 1 0 0).block_hashes.length = 1
    ∧ (ScanRs.scan_file "f" [0] 1 0 0).last_block_size = 0
    ∧ (ScanRs.scan_file "f" [0] 1 0 0).last_block_size ≠ 1
    ∧ (MainRs.scan_file "f" [0] 1).last_block_size = 1 := by
  refine ⟨?_, rfl, by simp [scanrs_last_block_size], ?_⟩
  · rw [scanrs_block_hashes]
    rw [readChunks_cons 1 [0] one_ne_zero (by simp)]
    simp [readChunks_nil]
  · rw [mainrs_last_block_size]
    rw [readChunks_cons 1 [0] one_ne_zero (by simp)]
    simp [readChunks_nil, lastLen]

/-- C8: hashing is deterministic — `block_hashes` depends only on the byte
content and the block size, not on the path or the per-run metadata, so two
scans of the same bytes with the same block size agree (both implementations). -/
theorem scan_hash_deterministic (p1 p2 : String) (mt1 mt2 in1 in2 : Nat)
    (c : List Nat) (B : Nat) :
    (ScanRs.scan_file p1 c B mt1 in1).block_hashes
      = (ScanRs.scan_file p2 c B mt2 in2).block_hashes
    ∧ (MainRs.scan_file p1 c B).block_hashes
      = (MainRs.scan_file p2 c B).block_hashes :=
  ⟨rfl, rfl⟩

/-- C9 counterexample: the two `scan_file` implementations are not equivalent.
On a one-byte file with `block_size = 1` (size a non-zero exact multiple of the
block size) `src/main.rs` records `last_block_size = 1` while `src/scan.rs`
records `0`. -/
theorem scan_impls_differ_on_exact_multiple :
    (MainRs.scan_file "g" [7] 1).last_block_size = 1
    ∧ (ScanRs.scan_file "g" [7] 1 0 0).last_block_size = 0
    ∧ (MainRs.scan_file "g" [7] 1).last_block_size
        ≠ (ScanRs.scan_file "g" [7] 1 0 0).last_block_size := by
  have h1 : (MainRs.scan_file "g" [7] 1).last_block_size = 1 := by
    rw [mainrs_last_block_size]
    rw [readChunks_cons 1 [7] one_ne_zero (by simp)]
    simp [readChunks_nil, lastLen]
  exact ⟨h1, rfl, by rw [h1]; simp [scanrs_last_block_size]⟩

/-- C9 amended: for every content and every `B > 0` the two implementations
produce identical `block_hashes`; their `last_block_size` also agrees except
when the file is non-empty and its size is an exact multiple of `B`, where
`src/main.rs` records `B` and `src/scan.rs` records `0`. -/
theorem scan_impls_equiv_amended (p1 p2 : String) (c : List Nat)
    (B mt ino2 : Nat) (hB : 0 < B) :
    (MainRs.scan_file p1 c B).block_hashes
      = (ScanRs.scan_file p2 c B mt ino2).block_hashes
    ∧ ((c ≠ [] → c.length % B ≠ 0) →
        (MainRs.scan_file p1 c B).last_block_size
          = (ScanRs.scan_file p2 c B mt ino2).last_block_size)
    ∧ (c ≠ [] → c.length % B = 0 →
        (MainRs.scan_file p1 c B).last_block_size = B
        ∧ (ScanRs.scan_file p2 c B mt ino2).last_block_size = 0) := by
  refine ⟨by rw [mainrs_block_hashes, scanrs_block_hashes], ?_, ?_⟩
  · intro hmod
    rw [mainrs_last_block_size, scanrs_last_block_size]
    by_cases hc : c = []
    · rw [hc, readChunks_nil]
      simp [lastLen]
    · rw [lastLen_readChunks B hB c.length c hc le_rfl]
      rw [if_neg (hmod hc)]
  · intro hc hmod
    constructor
    · rw [mainrs_last_block_size]
      rw [lastLen_readChunks B hB c.length c hc le_rfl]
      rw [if_pos hmod]
    · rw [scanrs_last_block_size]
      exact hmod

/-! ### Claims about `dedup` -/

/-- An environment in which every open fails. -/
def envC : FsEnv :=
  { openRead := fun _ => Except.error "enoent"
    openWrite := fun _ => Except.error "eacces"
    deduplicate_range := fun _ _ => Except.ok () }

/-- An environment in which both opens succeed on the same inode (hardlinks). -/
def envHard : FsEnv :=
  { openRead := fun _ => Except.ok { fd := 3, ino := 7 }
    openWrite := fun _ => Except.ok { fd := 4, ino := 7 }
    deduplicate_range := fun _ _ => Except.ok () }

/-- An environment in which both opens succeed on distinct inodes and the
primitive succeeds. -/
def envOk : FsEnv :=
  { openRead := fun _ => Except.ok { fd := 3, ino := 7 }
    openWrite := fun _ => Except.ok { fd := 4, ino := 8 }
    deduplicate_range := fun _ _ => Except.ok () }

def locA : BlockLocation := { path := "a", offset := 0, length := 4 }

def locB : BlockLocation := { path := "b", offset := 0, length := 4 }

/-- C3: pairing a location against an identical one fails with `SameBlock`
before any filesystem interaction: no file is opened and the dedup primitive is
not invoked (empty effect list). -/
theorem dedup_same_block (env : FsEnv) (src dst : BlockLocation) (h : src = dst) :
    dedup env src dst = (Except.error (BlockDedupError.SameBlock src), []) := by
  subst h
  simp [dedup]

/-- Witness for C3 at a concrete location and environment. -/
theorem dedup_same_block_witness :
    dedup envC locA locA = (Except.error (BlockDedupError.SameBlock locA), []) :=
  dedup_same_block envC locA locA rfl

/-- C4: if both opens succeed and `(inode, offset, length)` agree on both sides,
`dedup` fails with `SameExtent`; the only filesystem interactions are the two
opens — the dedup primitive is not invoked. -/
theorem dedup_same_extent (env : FsEnv) (src dst : BlockLocation) (f1 f2 : File)
    (hne : src ≠ dst)
    (h1 : env.openRead src.path = Except.ok f1)
    (h2 : env.openWrite dst.path = Except.ok f2)
    (hino : f1.ino = f2.ino) (hoff : src.offset = dst.offset)
    (hlen : src.length = dst.length) :
    dedup env src dst
      = (Except.error (BlockDedupError.SameExtent src.path dst.path
            f1.ino src.offset src.length),
         [Effect.openRead src.path, Effect.openWrite dst.path]) := by
  have hcond : (f1.ino, src.offset, src.length) = (f2.ino, dst.offset, dst.length) := by
    rw [hino, hoff, hlen]
  simp [dedup, if_neg hne, h1, h2, hcond]

/-- Witness for C4: two distinct paths hardlinked to inode 7, equal offsets and
lengths. -/
theorem dedup_same_extent_witness :
    dedup envHard locA locB
      = (Except.error (BlockDedupError.SameExtent "a" "b" 7 0 4),
         [Effect.openRead "a", Effect.openWrite "b"]) :=
  dedup_same_extent envHard locA locB { fd := 3, ino := 7 } { fd := 4, ino := 7 }
    (by decide) rfl rfl rfl rfl rfl

/-- C5: if opening the source read-only or opening the destination writable
fails, `dedup` fails with `FileErrors` carrying the `err()` of both open
results (either may be `none`), and the dedup primitive is not invoked. -/
theorem dedup_file_errors (env : FsEnv) (src dst : BlockLocation) (hne : src ≠ dst)
    (h : (∃ e, env.openRead src.path = Except.error e)
        ∨ (∃ e, env.openWrite dst.path = Except.error e)) :
    dedup env src dst
      = (Except.error (BlockDedupError.FileErrors
            (resultErr (env.openRead src.path)) (resultErr (env.openWrite dst.path))),
         [Effect.openRead src.path, Effect.openWrite dst.path]) := by
  cases hr : env.openRead src.path with
  | ok f1 =>
    cases hw : env.openWrite dst.path with
    | ok f2 =>
      exfalso
      rcases h with ⟨e, he⟩ | ⟨e, he⟩
      · rw [hr] at he; exact Except.noConfusion he
      · rw [hw] at he; exact Except.noConfusion he
    | error e2 => simp [dedup, if_neg hne, hr, hw, resultErr]
  | error e1 =>
    cases hw : env.openWrite dst.path with
    | ok f2 => simp [dedup, if_neg hne, hr, hw, resultErr]
    | error e2 => simp [dedup, if_neg hne, hr, hw, resultErr]

/-- Witness for C5: both opens fail; both errors are carried. -/
theorem dedup_file_errors_witness :
    dedup envC locA locB
      = (Except.error (BlockDedupError.FileErrors (some "enoent") (some "eacces")),
         [Effect.openRead "a", Effect.openWrite "b"]) :=
  dedup_file_errors envC locA locB (by decide) (Or.inl ⟨"enoent", rfl⟩)

/-- C6: every request `dedup` submits to the dedup primitive has source range
`(src.offset, src.length)` and exactly one destination descriptor, whose offset
and length match `dst` exactly. -/
theorem dedup_request_shape (env : FsEnv) (src dst : BlockLocation)
    (fd : Nat) (req : DedupeRange)
    (hmem : Effect.dedupRange fd req ∈ (dedup env src dst).2) :
    req.src_offset = src.offset ∧ req.src_length = src.length
    ∧ ∃ d, req.dest_infos = [d]
        ∧ d.dest_offset = dst.offset ∧ d.bytes_deduped = dst.length := by
  by_cases hne : src = dst
  · subst hne
    simp [dedup] at hmem
  · cases hr : env.openRead src.path with
    | error e1 =>
      simp only [dedup, if_neg hne, hr] at hmem
      simp at hmem
    | ok f1 =>
      cases hw : env.openWrite dst.path with
      | error e2 =>
        simp only [dedup, if_neg hne, hr, hw] at hmem
        simp at hmem
      | ok f2 =>
        by_cases hext : (f1.ino, src.offset, src.length)
            = (f2.ino, dst.offset, dst.length)
        · rw [show dedup env src dst
              = (Except.error (BlockDedupError.SameExtent src.path dst.path
                    f1.ino src.offset src.length),
                 [Effect.openRead src.path, Effect.openWrite dst.path]) from by
            simp [dedup, if_neg hne, hr, hw, hext]] at hmem
          simp at hmem
        · have heffects : (dedup env src dst).2
              = [Effect.openRead src.path, Effect.openWrite dst.path,
                 Effect.dedupRange f1.fd
                   { src_offset := src.offset, src_length := src.length,
                     dest_infos := [{ dest_fd := Int.ofNat f2.fd,
                                      dest_offset := dst.offset,
                                      bytes_deduped := dst.length,
                                      status := DedupeRangeStatus.Same }] }] := by
            simp only [dedup, if_neg hne, hr, hw, if_neg hext]
            split <;> rfl
          rw [heffects] at hmem
          simp only [List.mem_cons, List.mem_singleton, List.not_mem_nil,
            or_false] at hmem
          rcases hmem with h | h | h
          · exact absurd h (by simp)
          · exact absurd h (by simp)
          · injection h with h1 h2
            subst h2
            exact ⟨rfl, rfl, ⟨_, rfl, rfl, rfl⟩⟩

/-- The request `dedup` builds for `locA → locB` in `envOk`. -/
def reqAB : DedupeRange :=
  { src_offset := 0
    src_length := 4
    dest_infos := [{ dest_fd := 4, dest_offset := 0, bytes_deduped := 4,
                     status := DedupeRangeStatus.Same }] }

/-- Witness for C6: in `envOk` the `locA → locB` pairing reaches the primitive,
and the submitted request has the claimed shape. -/
theorem dedup_request_shape_witness :
    Effect.dedupRange 3 reqAB ∈ (dedup envOk locA locB).2
    ∧ reqAB.src_offset = locA.offset ∧ reqAB.src_length = locA.length
    ∧ ∃ d, reqAB.dest_infos = [d]
        ∧ d.dest_offset = locB.offset ∧ d.bytes_deduped = locB.length := by
  have hmem : Effect.dedupRange 3 reqAB ∈ (dedup envOk locA locB).2 := by decide
  exact ⟨hmem, dedup_request_shape envOk locA locB 3 reqAB hmem⟩

/-- Witness for C9's amended equivalence at a two-byte file with block size 2. -/
theorem scan_impls_equiv_amended_witness :
    (MainRs.scan_file "x" [7, 8] 2).last_block_size = 2
    ∧ (ScanRs.scan_file "y" [7, 8] 2 3 4).last_block_size = 0 :=
  (scan_impls_equiv_amended "x" "y" [7, 8] 2 3 4 (by decide)).2.2
    (by decide) (by decide)

/-! ### Lemmas about the consumer loop -/

theorem orElseO_none_right {α : Type} (a : Option α) : orElseO a none = a := by
  cases a <;> rfl

theorem firstSeen_append (a b : List (Nat × BlockLocation)) (h : Nat) :
    firstSeen (a ++ b) h = orElseO (firstSeen a h) (firstSeen b h) := by
  induction a with
  | nil => rfl
  | cons kv rest ih =>
    obtain ⟨k, v⟩ := kv
    by_cases hk : h = k
    · simp [firstSeen, hk, orElseO]
    · simp [firstSeen, hk, ih]

theorem flatBlocks_append (a b : List MainRs.ScanResult) :
    flatBlocks (a ++ b) = flatBlocks a ++ flatBlocks b := by
  induction a with
  | nil => rfl
  | cons sr rest ih => simp [flatBlocks, ih]

/-- Fold invariant of the inner block loop: if the index agrees with
`firstSeen` over the already-processed prefix of the block stream and every
recorded `dedup` call used the first-seen location as its source, both remain
true after consuming more blocks. -/
theorem consumeBlocks_inv (env : FsEnv) (sr : MainRs.ScanResult) :
    ∀ (hashes : List Nat) (n : Nat) (st : ConsumerState)
      (pre : List (Nat × BlockLocation)),
    (∀ h2, lookupIdx st.inodes h2 = firstSeen pre h2) →
    (∀ h2 s d r, Event.dedupCall h2 s d r ∈ st.trace → firstSeen pre h2 = some s) →
    (∀ h2, lookupIdx (consumeBlocks env sr n hashes st).inodes h2
        = firstSeen (pre ++ blocksOfAux sr n hashes) h2)
    ∧ (∀ h2 s d r, Event.dedupCall h2 s d r ∈ (consumeBlocks env sr n hashes st).trace →
        firstSeen (pre ++ blocksOfAux sr n hashes) h2 = some s) := by
  intro hashes
  induction hashes with
  | nil =>
    intro n st pre hidx hcalls
    constructor
    · intro h2
      simpa [consumeBlocks, blocksOfAux] using hidx h2
    · intro h2 s d r hmem
      simp only [blocksOfAux, List.append_nil]
      exact hcalls h2 s d r (by simpa [consumeBlocks] using hmem)
  | cons bh rest ih =>
    intro n st pre hidx hcalls
    have hstep : consumeBlocks env sr n (bh :: rest) st
        = consumeBlocks env sr (n + 1) rest (processBlock env sr n bh st) := rfl
    have hlist : pre ++ blocksOfAux sr n (bh :: rest)
        = (pre ++ [(bh, sr.get_block_location n)]) ++ blocksOfAux sr (n + 1) rest := by
      simp [blocksOfAux]
    rw [hstep, hlist]
    cases hl : lookupIdx st.inodes bh with
    | some x =>
      have hx : firstSeen pre bh = some x := by rw [← hidx bh]; exact hl
      have hproc : processBlock env sr n bh st
          = { inodes := st.inodes,
              trace := st.trace
                ++ [Event.getLoc sr.block_hashes.length n,
                    Event.dedupCall bh x (sr.get_block_location n)
                      (dedup env x (sr.get_block_location n)).1] } := by
        simp [processBlock, hl]
      refine ih (n + 1) _ (pre ++ [(bh, sr.get_block_location n)]) ?_ ?_
      · intro h2
        rw [hproc, firstSeen_append]
        by_cases hb : h2 = bh
        · subst hb
          rw [hidx h2, hx]
          rfl
        · have hnone : firstSeen [(bh, sr.get_block_location n)] h2 = none := by
            simp [firstSeen, hb]
          rw [hnone, orElseO_none_right]
          exact hidx h2
      · intro h2 s d r hmem
        rw [hproc] at hmem
        simp only [List.mem_append, List.mem_cons, List.not_mem_nil, or_false] at hmem
        rcases hmem with hold | hnew | hnew
        · rw [firstSeen_append, hcalls h2 s d r hold]
          rfl
        · exact absurd hnew (by simp)
        · have hh : h2 = bh ∧ s = x := by
            have := hnew
            injection this with a1 a2 a3 a4
            exact ⟨a1, a2⟩
          obtain ⟨hh1, hh2⟩ := hh
          subst hh1; subst hh2
          rw [firstSeen_append, hx]
          rfl
    | none =>
      have hx : firstSeen pre bh = none := by rw [← hidx bh]; exact hl
      have hproc : processBlock env sr n bh st
          = { inodes := (bh, sr.get_block_location n) :: st.inodes,
              trace := st.trace ++ [Event.getLoc sr.block_hashes.length n] } := by
        simp [processBlock, hl]
      refine ih (n + 1) _ (pre ++ [(bh, sr.get_block_location n)]) ?_ ?_
      · intro h2
        rw [hproc, firstSeen_append]
        by_cases hb : h2 = bh
        · subst hb
          rw [hx]
          simp [lookupIdx, firstSeen, orElseO]
        · have hnone : firstSeen [(bh, sr.get_block_location n)] h2 = none := by
            simp [firstSeen, hb]
          rw [hnone, orElseO_none_right]
          show lookupIdx ((bh, sr.get_block_location n) :: st.inodes) h2 = firstSeen pre h2
          simp only [lookupIdx, if_neg hb]
          exact hidx h2
      · intro h2 s d r hmem
        rw [hproc] at hmem
        simp only [List.mem_append, List.mem_cons, List.not_mem_nil, or_false] at hmem
        rcases hmem with hold | hnew
        · rw [firstSeen_append, hcalls h2 s d r hold]
          rfl
        · exact absurd hnew (by simp)

/-- Lift of `consumeBlocks_inv` over the whole run. -/
theorem runConsumer_inv (env : FsEnv) :
    ∀ (srs : List MainRs.ScanResult) (st : ConsumerState)
      (pre : List (Nat × BlockLocation)),
    (∀ h2, lookupIdx st.inodes h2 = firstSeen pre h2) →
    (∀ h2 s d r, Event.dedupCall h2 s d r ∈ st.trace → firstSeen pre h2 = some s) →
    (∀ h2, lookupIdx ((srs.foldl (processScanResult env) st).inodes) h2
        = firstSeen (pre ++ flatBlocks srs) h2)
    ∧ (∀ h2 s d r,
        Event.dedupCall h2 s d r ∈ (srs.foldl (processScanResult env) st).trace →
        firstSeen (pre ++ flatBlocks srs) h2 = some s) := by
  intro srs
  induction srs with
  | nil =>
    intro st pre hidx hcalls
    constructor
    · intro h2
      simpa [flatBlocks] using hidx h2
    · intro h2 s d r hmem
      simp only [flatBlocks, List.append_nil]
      exact hcalls h2 s d r (by simpa using hmem)
  | cons sr rest ih =>
    intro st pre hidx hcalls
    have hstep := consumeBlocks_inv env sr sr.block_hashes 0 st pre hidx hcalls
    have hres := ih (processScanResult env st sr) (pre ++ blocksOf sr) hstep.1 hstep.2
    have hlist : (pre ++ blocksOf sr) ++ flatBlocks rest
        = pre ++ flatBlocks (sr :: rest) := by
      simp [flatBlocks, List.append_assoc]
    rw [List.foldl_cons]
    rw [hlist] at hres
    exact hres

/-- The index contents and the submitted pairs do not depend on the dedup
outcomes: two runs over the same block stream in different filesystem
environments have the same index and the same trace up to the recorded
results. -/
theorem consumeBlocks_env_agnostic (env1 env2 : FsEnv) (sr : MainRs.ScanResult) :
    ∀ (hashes : List Nat) (n : Nat) (st1 st2 : ConsumerState),
    st1.inodes = st2.inodes →
    st1.trace.map Event.dropRes = st2.trace.map Event.dropRes →
    (consumeBlocks env1 sr n hashes st1).inodes
      = (consumeBlocks env2 sr n hashes st2).inodes
    ∧ (consumeBlocks env1 sr n hashes st1).trace.map Event.dropRes
      = (consumeBlocks env2 sr n hashes st2).trace.map Event.dropRes := by
  intro hashes
  induction hashes with
  | nil =>
    intro n st1 st2 hi ht
    exact ⟨hi, ht⟩
  | cons bh rest ih =>
    intro n st1 st2 hi ht
    refine ih (n + 1) (processBlock env1 sr n bh st1) (processBlock env2 sr n bh st2) ?_ ?_
    · cases hl : lookupIdx st1.inodes bh with
      | some x =>
        have hl2 : lookupIdx st2.inodes bh = some x := by rw [← hi]; exact hl
        simp [processBlock, hl, hl2, hi]
      | none =>
        have hl2 : lookupIdx st2.inodes bh = none := by rw [← hi]; exact hl
        simp [processBlock, hl, hl2, hi]
    · cases hl : lookupIdx st1.inodes bh with
      | some x =>
        have hl2 : lookupIdx st2.inodes bh = some x := by rw [← hi]; exact hl
        simp [processBlock, hl, hl2, ht, Event.dropRes]
      | none =>
        have hl2 : lookupIdx st2.inodes bh = none := by rw [← hi]; exact hl
        simp [processBlock, hl, hl2, ht]

/-- Lift of `consumeBlocks_env_agnostic` over the whole run. -/
theorem runConsumer_env_agnostic (env1 env2 : FsEnv) :
    ∀ (srs : List MainRs.ScanResult) (st1 st2 : ConsumerState),
    st1.inodes = st2.inodes →
    st1.trace.map Event.dropRes = st2.trace.map Event.dropRes →
    (srs.foldl (processScanResult env1) st1).inodes
      = (srs.foldl (processScanResult env2) st2).inodes
    ∧ (srs.foldl (processScanResult env1) st1).trace.map Event.dropRes
      = (srs.foldl (processScanResult env2) st2).trace.map Event.dropRes := by
  intro srs
  induction srs with
  | nil => intro st1 st2 hi ht; exact ⟨hi, ht⟩
  | cons sr rest ih =>
    intro st1 st2 hi ht
    have hstep := consumeBlocks_env_agnostic env1 env2 sr sr.block_hashes 0 st1 st2 hi ht
    exact ih (processScanResult env1 st1 sr) (processScanResult env2 st2 sr)
      hstep.1 hstep.2

/-- The `get_block_location` calls recorded while consuming one result's
blocks: one per block, indices ascending from `n`. -/
theorem consumeBlocks_getLocs (env : FsEnv) (sr : MainRs.ScanResult) :
    ∀ (hashes : List Nat) (n : Nat) (st : ConsumerState),
    ((consumeBlocks env sr n hashes st).trace).filterMap Event.getLocInfo
      = st.trace.filterMap Event.getLocInfo
        ++ (idxFrom n hashes.length).map (fun i => (sr.block_hashes.length, i)) := by
  intro hashes
  induction hashes with
  | nil => intro n st; simp [consumeBlocks, idxFrom]
  | cons bh rest ih =>
    intro n st
    have hstep : consumeBlocks env sr n (bh :: rest) st
        = consumeBlocks env sr (n + 1) rest (processBlock env sr n bh st) := rfl
    rw [hstep, ih]
    have hproc : (processBlock env sr n bh st).trace.filterMap Event.getLocInfo
        = st.trace.filterMap Event.getLocInfo ++ [(sr.block_hashes.length, n)] := by
      cases hl : lookupIdx st.inodes bh with
      | some x => simp [processBlock, hl, Event.getLocInfo, List.filterMap_append]
      | none => simp [processBlock, hl, Event.getLocInfo, List.filterMap_append]
    rw [hproc]
    simp [idxFrom, List.append_assoc]

/-- Lift of `consumeBlocks_getLocs` over the whole run. -/
theorem runConsumer_getLocs (env : FsEnv) :
    ∀ (srs : List MainRs.ScanResult) (st : ConsumerState),
    ((srs.foldl (processScanResult env) st).trace).filterMap Event.getLocInfo
      = st.trace.filterMap Event.getLocInfo ++ getLocSpec srs := by
  intro srs
  induction srs with
  | nil => intro st; simp [getLocSpec]
  | cons sr rest ih =>
    intro st
    rw [List.foldl_cons, ih]
    rw [show processScanResult env st sr = consumeBlocks env sr 0 sr.block_hashes st
      from rfl]
    rw [consumeBlocks_getLocs env sr sr.block_hashes 0 st]
    simp [getLocSpec, List.append_assoc]

theorem lookupIdx_none_iff :
    ∀ (m : List (Nat × BlockLocation)) (h2 : Nat),
    lookupIdx m h2 = none ↔ h2 ∉ m.map Prod.fst := by
  intro m
  induction m with
  | nil => intro h2; simp [lookupIdx]
  | cons kv rest ih =>
    obtain ⟨k, v⟩ := kv
    intro h2
    by_cases hk : h2 = k
    · simp [lookupIdx, hk]
    · simp [lookupIdx, hk, ih]

/-- `dupCountAux` only depends on the membership view of the seen set. -/
theorem dupCountAux_congr :
    ∀ (l s1 s2 : List Nat), (∀ x, x ∈ s1 ↔ x ∈ s2) →
    dupCountAux s1 l = dupCountAux s2 l := by
  intro l
  induction l with
  | nil => intro s1 s2 hiff; rfl
  | cons h t ih =>
    intro s1 s2 hiff
    by_cases hm : h ∈ s1
    · simp only [dupCountAux, if_pos hm, if_pos ((hiff h).mp hm)]
      rw [ih s1 s2 hiff]
    · have hm2 : h ∉ s2 := fun hx => hm ((hiff h).mpr hx)
      simp only [dupCountAux, if_neg hm, if_neg hm2]
      refine ih (h :: s1) (h :: s2) ?_
      intro x
      simp only [List.mem_cons]
      constructor
      · rintro (hx | hx)
        · exact Or.inl hx
        · exact Or.inr ((hiff x).mp hx)
      · rintro (hx | hx)
        · exact Or.inl hx
        · exact Or.inr ((hiff x).mpr hx)

theorem dupCountAux_append :
    ∀ (a b seen : List Nat),
    dupCountAux seen (a ++ b) = dupCountAux seen a + dupCountAux (a ++ seen) b := by
  have hunf : ∀ (s : List Nat) (x : Nat) (l : List Nat),
      dupCountAux s (x :: l)
        = if x ∈ s then 1 + dupCountAux s l else dupCountAux (x :: s) l :=
    fun s x l => rfl
  intro a
  induction a with
  | nil => intro b seen; simp [dupCountAux]
  | cons h t ih =>
    intro b seen
    rw [List.cons_append, hunf, hunf]
    by_cases hm : h ∈ seen
    · rw [if_pos hm, if_pos hm, ih]
      have hc : dupCountAux (t ++ seen) b = dupCountAux ((h :: t) ++ seen) b := by
        refine dupCountAux_congr b _ _ ?_
        intro x
        simp only [List.cons_append, List.mem_append, List.mem_cons]
        constructor
        · intro hx; tauto
        · rintro (hx | hx)
          · subst hx; tauto
          · tauto
      rw [hc]
      omega
    · rw [if_neg hm, if_neg hm, ih]
      have hc : dupCountAux (t ++ h :: seen) b = dupCountAux ((h :: t) ++ seen) b := by
        refine dupCountAux_congr b _ _ ?_
        intro x
        simp only [List.cons_append, List.mem_append, List.mem_cons]
        tauto
      rw [hc]

/-- Which hashes are keys of the index after consuming blocks. -/
theorem consumeBlocks_keys (env : FsEnv) (sr : MainRs.ScanResult) :
    ∀ (hashes : List Nat) (n : Nat) (st : ConsumerState) (h2 : Nat),
    h2 ∈ (consumeBlocks env sr n hashes st).inodes.map Prod.fst
      ↔ (h2 ∈ st.inodes.map Prod.fst ∨ h2 ∈ hashes) := by
  intro hashes
  induction hashes with
  | nil => intro n st h2; simp [consumeBlocks]
  | cons bh rest ih =>
    intro n st h2
    have hstep : consumeBlocks env sr n (bh :: rest) st
        = consumeBlocks env sr (n + 1) rest (processBlock env sr n bh st) := rfl
    rw [hstep, ih]
    cases hl : lookupIdx st.inodes bh with
    | some x =>
      have hbh : bh ∈ st.inodes.map Prod.fst := by
        by_contra hnot
        rw [← lookupIdx_none_iff] at hnot
        rw [hl] at hnot
        exact Option.noConfusion hnot
      have hpi : (processBlock env sr n bh st).inodes = st.inodes := by
        simp [processBlock, hl]
      rw [hpi]
      simp only [List.mem_cons]
      constructor
      · rintro (hx | hx)
        · exact Or.inl hx
        · exact Or.inr (Or.inr hx)
      · rintro (hx | hx | hx)
        · exact Or.inl hx
        · subst hx; exact Or.inl hbh
        · exact Or.inr hx
    | none =>
      have hpi : (processBlock env sr n bh st).inodes
          = (bh, sr.get_block_location n) :: st.inodes := by
        simp [processBlock, hl]
      rw [hpi]
      simp only [List.map_cons, List.mem_cons]
      constructor
      · rintro ((hx | hx) | hx)
        · subst hx; exact Or.inr (Or.inl rfl)
        · exact Or.inl hx
        · exact Or.inr (Or.inr hx)
      · rintro (hx | hx | hx)
        · exact Or.inl (Or.inr hx)
        · subst hx; exact Or.inl (Or.inl rfl)
        · exact Or.inr hx

/-- Each block whose hash is already a key triggers exactly one `dedup` call;
index misses trigger none. -/
theorem consumeBlocks_count (env : FsEnv) (sr : MainRs.ScanResult) :
    ∀ (hashes : List Nat) (n : Nat) (st : ConsumerState),
    ((consumeBlocks env sr n hashes st).trace).countP Event.isDedupCall
      = st.trace.countP Event.isDedupCall
        + dupCountAux (st.inodes.map Prod.fst) hashes := by
  intro hashes
  induction hashes with
  | nil => intro n st; simp [consumeBlocks, dupCountAux]
  | cons bh rest ih =>
    intro n st
    have hstep : consumeBlocks env sr n (bh :: rest) st
        = consumeBlocks env sr (n + 1) rest (processBlock env sr n bh st) := rfl
    rw [hstep, ih]
    cases hl : lookupIdx st.inodes bh with
    | some x =>
      have hbh : bh ∈ st.inodes.map Prod.fst := by
        by_contra hnot
        rw [← lookupIdx_none_iff] at hnot
        rw [hl] at hnot
        exact Option.noConfusion hnot
      have hpi : (processBlock env sr n bh st).inodes = st.inodes := by
        simp [processBlock, hl]
      have hpc : (processBlock env sr n bh st).trace.countP Event.isDedupCall
          = st.trace.countP Event.isDedupCall + 1 := by
        simp [processBlock, hl, List.countP_append, Event.isDedupCall]
      rw [hpi, hpc]
      simp only [dupCountAux, if_pos hbh]
      omega
    | none =>
      have hbh : bh ∉ st.inodes.map Prod.fst := (lookupIdx_none_iff _ _).mp hl
      have hpi : (processBlock env sr n bh st).inodes
          = (bh, sr.get_block_location n) :: st.inodes := by
        simp [processBlock, hl]
      have hpc : (processBlock env sr n bh st).trace.countP Event.isDedupCall
          = st.trace.countP Event.isDedupCall := by
        simp [processBlock, hl, List.countP_append, Event.isDedupCall]
      rw [hpi, hpc]
      simp only [dupCountAux, if_neg hbh, List.map_cons]

/-- Lift of `consumeBlocks_count` over the whole run. -/
theorem runConsumer_count (env : FsEnv) :
    ∀ (srs : List MainRs.ScanResult) (st : ConsumerState),
    ((srs.foldl (processScanResult env) st).trace).countP Event.isDedupCall
      = st.trace.countP Event.isDedupCall
        + dupCountAux (st.inodes.map Prod.fst) (allHashes srs) := by
  intro srs
  induction srs with
  | nil => intro st; simp [allHashes, dupCountAux]
  | cons sr rest ih =>
    intro st
    rw [List.foldl_cons, ih]
    rw [show processScanResult env st sr = consumeBlocks env sr 0 sr.block_hashes st
      from rfl]
    rw [consumeBlocks_count env sr sr.block_hashes 0 st]
    rw [show allHashes (sr :: rest) = sr.block_hashes ++ allHashes rest from rfl]
    rw [dupCountAux_append]
    have hc : dupCountAux
        ((consumeBlocks env sr 0 sr.block_hashes st).inodes.map Prod.fst)
        (allHashes rest)
        = dupCountAux (sr.block_hashes ++ st.inodes.map Prod.fst) (allHashes rest) := by
      refine dupCountAux_congr (allHashes rest) _ _ ?_
      intro x
      rw [consumeBlocks_keys env sr sr.block_hashes 0 st x]
      simp only [List.mem_append]
      constructor
      · rintro (hx | hx)
        · exact Or.inr hx
        · exact Or.inl hx
      · rintro (hx | hx)
        · exact Or.inr hx
        · exact Or.inl hx
    rw [hc]
    omega

/-- Every `get_block_location` call recorded while consuming blocks uses an
index below the `block_hashes` length it reads. -/
theorem consumeBlocks_getLoc_bound (env : FsEnv) (sr : MainRs.ScanResult) :
    ∀ (hashes : List Nat) (n : Nat) (st : ConsumerState),
    n + hashes.length = sr.block_hashes.length →
    (∀ len idx, Event.getLoc len idx ∈ st.trace → idx < len ∧ len < USIZE) →
    sr.block_hashes.length < USIZE →
    ∀ len idx, Event.getLoc len idx ∈ (consumeBlocks env sr n hashes st).trace →
    idx < len ∧ len < USIZE := by
  intro hashes
  induction hashes with
  | nil =>
    intro n st hn hst hsr len idx hmem
    exact hst len idx hmem
  | cons bh rest ih =>
    intro n st hn hst hsr
    have hstep : consumeBlocks env sr n (bh :: rest) st
        = consumeBlocks env sr (n + 1) rest (processBlock env sr n bh st) := rfl
    rw [hstep]
    refine ih (n + 1) (processBlock env sr n bh st) ?_ ?_ hsr
    · simp only [List.length_cons] at hn
      omega
    · intro len idx hmem
      have hidx : n < sr.block_hashes.length := by
        simp only [List.length_cons] at hn
        omega
      cases hl : lookupIdx st.inodes bh with
      | some x =>
        simp only [processBlock, hl] at hmem
        simp only [List.mem_append, List.mem_cons, List.not_mem_nil, or_false] at hmem
        rcases hmem with (hold | hnew) | hnew
        · exact hst len idx hold
        · have : len = sr.block_hashes.length ∧ idx = n := by
            injection hnew with a1 a2
            exact ⟨a1, a2⟩
          obtain ⟨rfl, rfl⟩ := this
          exact ⟨hidx, hsr⟩
        · exact absurd hnew (by simp)
      | none =>
        simp only [processBlock, hl] at hmem
        simp only [List.mem_append, List.mem_cons, List.not_mem_nil, or_false] at hmem
        rcases hmem with hold | hnew
        · exact hst len idx hold
        · have : len = sr.block_hashes.length ∧ idx = n := by
            injection hnew with a1 a2
            exact ⟨a1, a2⟩
          obtain ⟨rfl, rfl⟩ := this
          exact ⟨hidx, hsr⟩

/-- Lift of `consumeBlocks_getLoc_bound` over the whole run. -/
theorem runConsumer_getLoc_bound (env : FsEnv) :
    ∀ (srs : List MainRs.ScanResult) (st : ConsumerState),
    (∀ sr ∈ srs, sr.block_hashes.length < USIZE) →
    (∀ len idx, Event.getLoc len idx ∈ st.trace → idx < len ∧ len < USIZE) →
    ∀ len idx, Event.getLoc len idx ∈ (srs.foldl (processScanResult env) st).trace →
    idx < len ∧ len < USIZE := by
  intro srs
  induction srs with
  | nil => intro st hsrs hst len idx hmem; exact hst len idx hmem
  | cons sr rest ih =>
    intro st hsrs hst
    rw [List.foldl_cons]
    refine ih (processScanResult env st sr) (fun s hs => hsrs s (List.mem_cons_of_mem sr hs)) ?_
    exact consumeBlocks_getLoc_bound env sr sr.block_hashes 0 st (by simp) hst
      (hsrs sr (List.mem_cons_self sr rest))

/-! ### Claims about the consumer loop -/

/-- C2: the `inodes` index is insert-only and first-writer-wins.  For every
environment and every received sequence of scan results: (1) the final index
maps each hash to the first location observed with it; (2) once a hash is
mapped, receiving further scan results never removes or changes its entry;
(3) every recorded `dedup` call paired its destination against the first-seen
location of its hash (never an intermediate duplicate); (4) dedup outcomes do
not influence the index: runs in any two environments build identical indices. -/
theorem index_first_writer_wins (env env2 : FsEnv) (srs : List MainRs.ScanResult) :
    (∀ h2, lookupIdx (runConsumer env srs).inodes h2 = firstSeen (flatBlocks srs) h2)
    ∧ (∀ (pre post : List MainRs.ScanResult) (h2 : Nat) (loc : BlockLocation),
        lookupIdx (runConsumer env pre).inodes h2 = some loc →
        lookupIdx (runConsumer env (pre ++ post)).inodes h2 = some loc)
    ∧ (∀ h2 s d r, Event.dedupCall h2 s d r ∈ (runConsumer env srs).trace →
        firstSeen (flatBlocks srs) h2 = some s)
    ∧ (runConsumer env srs).inodes = (runConsumer env2 srs).inodes := by
  have hinit1 : ∀ h2, lookupIdx (⟨[], []⟩ : ConsumerState).inodes h2 = firstSeen [] h2 :=
    fun h2 => rfl
  have hinit2 : ∀ h2 s d r,
      Event.dedupCall h2 s d r ∈ (⟨[], []⟩ : ConsumerState).trace → firstSeen [] h2 = some s := by
    intro h2 s d r hmem
    exact absurd hmem (List.not_mem_nil _)
  refine ⟨?_, ?_, ?_, ?_⟩
  · intro h2
    have := (runConsumer_inv env srs ⟨[], []⟩ [] hinit1 hinit2).1 h2
    simpa [runConsumer] using this
  · intro pre post h2 loc hpre
    have h1 := (runConsumer_inv env pre ⟨[], []⟩ [] hinit1 hinit2).1 h2
    have h2full := (runConsumer_inv env (pre ++ post) ⟨[], []⟩ [] hinit1 hinit2).1 h2
    simp only [runConsumer] at hpre ⊢
    rw [h2full]
    simp only [List.nil_append]
    rw [flatBlocks_append, firstSeen_append]
    rw [h1] at hpre
    simp only [List.nil_append] at hpre
    rw [hpre]
    rfl
  · intro h2 s d r hmem
    have := (runConsumer_inv env srs ⟨[], []⟩ [] hinit1 hinit2).2 h2 s d r
      (by simpa [runConsumer] using hmem)
    simpa using this
  · exact (runConsumer_env_agnostic env env2 srs ⟨[], []⟩ ⟨[], []⟩ rfl rfl).1

/-- A first scan result received by the consumer: one block with hash 5. -/
def srA : MainRs.ScanResult :=
  { path := "a", block_size := 4, block_hashes := [5], last_block_size := 4 }

/-- A second scan result with the same single hash. -/
def srB : MainRs.ScanResult :=
  { path := "b", block_size := 4, block_hashes := [5], last_block_size := 4 }

/-- Witness for C2: after receiving `srA`, hash 5 maps to `srA`'s block 0;
receiving `srB` afterwards leaves the entry unchanged. -/
theorem index_first_writer_wins_witness :
    lookupIdx (runConsumer envC ([srA] ++ [srB])).inodes 5
      = some { path := "a", offset := 0, length := 4 } := by
  apply (index_first_writer_wins envC envC ([srA] ++ [srB])).2.1 [srA] [srB] 5
  decide

/-- C7: the consumer's processing is linear and non-escalating.  For every
environment: (1) the recorded `get_block_location` calls are exactly, in
order, the blocks of each received scan result in ascending index order —
so every block of every result is processed, whatever the dedup outcomes;
(2) the number of `dedup` invocations equals the number of duplicate hash
occurrences in the received stream — each index hit is submitted exactly
once, index misses never; (3) the submitted pair sequence is identical in any
two environments — no dedup outcome triggers a retry or a skip. -/
theorem consumer_linear_processing (env env2 : FsEnv) (srs : List MainRs.ScanResult) :
    ((runConsumer env srs).trace.filterMap Event.getLocInfo = getLocSpec srs)
    ∧ ((runConsumer env srs).trace.countP Event.isDedupCall
        = dupCountAux [] (allHashes srs))
    ∧ ((runConsumer env srs).trace.map Event.dropRes
        = (runConsumer env2 srs).trace.map Event.dropRes) := by
  refine ⟨?_, ?_, ?_⟩
  · have := runConsumer_getLocs env srs ⟨[], []⟩
    simpa [runConsumer] using this
  · have := runConsumer_count env srs ⟨[], []⟩
    simpa [runConsumer] using this
  · exact (runConsumer_env_agnostic env env2 srs ⟨[], []⟩ ⟨[], []⟩ rfl rfl).2

/-- C10: `get_block_location` computes `block_hashes.len() - 1` by wrapping
`usize` subtraction (`usizeSub1`), so on every call the consumer makes, the
index is below the (positive) number of hashes, and the subtraction does not
underflow: `usizeSub1 len = len - 1` exactly.  (On an empty `block_hashes` the
subtraction would wrap: `usizeSub1 0 = USIZE - 1`; the consumer never makes
such a call, since indices come from enumerating `block_hashes`.) -/
theorem get_block_location_precondition_holds (env : FsEnv)
    (srs : List MainRs.ScanResult)
    (hlen : ∀ sr ∈ srs, sr.block_hashes.length < USIZE) :
    ∀ len idx, Event.getLoc len idx ∈ (runConsumer env srs).trace →
    0 < len ∧ idx < len ∧ usizeSub1 len = len - 1 := by
  intro len idx hmem
  have h := runConsumer_getLoc_bound env srs ⟨[], []⟩ hlen
    (by intro len2 idx2 hm; exact absurd hm (List.not_mem_nil _)) len idx
    (by simpa [runConsumer] using hmem)
  have hub := h.2
  have hlb := h.1
  simp only [USIZE] at hub
  refine ⟨by omega, hlb, ?_⟩
  simp only [usizeSub1, USIZE]
  omega

/-- Witness for C10: the single `get_block_location` call made while consuming
`srA` has index 0 against one hash, and the wrapped subtraction is 0. -/
theorem get_block_location_precondition_holds_witness :
    Event.getLoc 1 0 ∈ (runConsumer envC [srA]).trace
    ∧ (0 < 1 ∧ 0 < 1 ∧ usizeSub1 1 = 1 - 1) := by
  have hmem : Event.getLoc 1 0 ∈ (runConsumer envC [srA]).trace := by decide
  exact ⟨hmem,
    get_block_location_precondition_holds envC [srA] (by decide) 1 0 hmem⟩
